import Mathlib

/-!
Verification of the volxo-backend metrics engine (`app.py`).

The Python source is shallowly embedded: Python floats are modelled as
rationals plus explicit non-finite markers, strings as Lean strings, and
every fallible operation (such as `int(...)` on a non-finite float) as an
`Option`-valued function.
-/

set_option maxRecDepth 8192
set_option exponentiation.threshold 1100

namespace Volxo

/-- Model of a Python float value: a finite rational, or one of the three
non-finite IEEE values that `float(...)` can produce. -/
inductive PyFloat where
  | fin (q : ℚ)
  | pinf
  | ninf
  | nan
deriving DecidableEq, Repr

/-- A scalar payload value as it arrives in the request JSON: `None`, a
string, a finite number, or anything else (list, dict, ...). -/
inductive Value where
  | vNone
  | vStr (s : String)
  | vNum (q : ℚ)
  | vOther
deriving DecidableEq, Repr

/-- The whitespace characters stripped by Python's `str.strip()` /
`float(...)` (ASCII fragment: space, tab, newline, CR, VT, FF). -/
def isPySpace (c : Char) : Bool :=
  c = ' ' || c = '\t' || c = '\n' || c = '\r' || c = Char.ofNat 11 || c = Char.ofNat 12

/-- Strip leading and trailing whitespace from a character list. -/
def trimWS (l : List Char) : List Char :=
  ((l.dropWhile isPySpace).reverse.dropWhile isPySpace).reverse

/-- Numeric value of an ASCII digit character. -/
def digitVal (c : Char) : ℕ := c.toNat - 48

/-- Does the list start with a digit?  Used for the lookahead after an
underscore inside a digit run. -/
def headDigit (l : List Char) : Bool :=
  match l with
  | d :: _ => d.isDigit
  | [] => false

/-- Consume a run of digits, allowing a single underscore between two
digits (Python numeric-literal rule).  Returns the accumulated value, the
number of digits consumed, and the remaining characters.  An underscore
is skipped when a digit follows; otherwise it is left in place (the
caller will then fail). -/
def runAux : List Char → ℕ → ℕ → ℕ × ℕ × List Char
  | [], acc, n => (acc, n, [])
  | c :: rest, acc, n =>
    if c.isDigit then runAux rest (10 * acc + digitVal c) (n + 1)
    else if c = '_' ∧ headDigit rest then runAux rest acc n
    else (acc, n, c :: rest)

/-- A digit run must begin with a digit (a leading underscore is refused,
as in Python). -/
def readRun (l : List Char) : ℕ × ℕ × List Char :=
  match l with
  | c :: _ => if c.isDigit then runAux l 0 0 else (0, 0, l)
  | [] => (0, 0, l)

/-- Optional fractional part: a dot followed by a digit run. -/
def parseFrac : List Char → ℕ × ℕ × List Char
  | '.' :: rest => readRun rest
  | l => (0, 0, l)

/-- Digits of an exponent; the run must be non-empty and exhaust the
input. -/
def expDigits (l : List Char) : Option ℤ :=
  match readRun l with
  | (v, n, r) => if n = 0 ∨ r ≠ [] then none else some (v : ℤ)

/-- Optional exponent part `e`/`E`, optional sign, digits; anything else
left over makes the whole parse fail. -/
def parseExp : List Char → Option ℤ
  | [] => some 0
  | c :: rest =>
    if c = 'e' ∨ c = 'E' then
      match rest with
      | '+' :: r2 => expDigits r2
      | '-' :: r2 => (expDigits r2).map (fun n => -n)
      | r2 => expDigits r2
    else none

/-- The purely syntactic shape of a Python `float(...)` literal after the
sign: integer digits `ip`, fractional digits `fp` (with `nf` of them),
decimal exponent `e`, or one of the `inf`/`nan` words. -/
inductive PyLit where
  | num (ip fp : ℕ) (nf : ℕ) (e : ℤ)
  | inf
  | nan
deriving DecidableEq, Repr

/-- Magnitude of a Python `float(...)` literal, sign already removed:
either an `inf`/`infinity`/`nan` word (case-insensitive) or
`digits [. digits] [exponent]` with at least one digit. -/
def parseMag (l : List Char) : Option PyLit :=
  let low := l.map Char.toLower
  if low = ['i', 'n', 'f'] ∨ low = ['i', 'n', 'f', 'i', 'n', 'i', 't', 'y'] then
    some .inf
  else if low = ['n', 'a', 'n'] then
    some .nan
  else
    match readRun l with
    | (ip, ni, r1) =>
      match parseFrac r1 with
      | (fp, nf, r2) =>
        if ni + nf = 0 then none
        else
          match parseExp r2 with
          | none => none
          | some e => some (.num ip fp nf e)

/-- Tokenize a Python `float(...)` argument: strip whitespace, read an
optional sign, then the magnitude.  The `Bool` is true for a leading
minus sign. -/
def pyLit (s : String) : Option (Bool × PyLit) :=
  match trimWS s.data with
  | '+' :: rest => (parseMag rest).map (fun m => (false, m))
  | '-' :: rest => (parseMag rest).map (fun m => (true, m))
  | rest => (parseMag rest).map (fun m => (false, m))

/-- The magnitude `(ip + fp / 10 ^ nf) · 10 ^ e` of a numeric literal,
built with `mkRat` over integer arithmetic so that it evaluates by
kernel reduction: the numerator is `(ip · 10 ^ nf + fp) · 10 ^ max e 0`
and the denominator `10 ^ nf · 10 ^ max (-e) 0`. -/
def numMag (ip fp nf : ℕ) (e : ℤ) : ℚ :=
  mkRat (((ip * 10 ^ nf + fp) * 10 ^ e.toNat : ℕ) : ℤ) (10 ^ nf * 10 ^ (-e).toNat)

/-- The overflow threshold of IEEE-double rounding: under
round-to-nearest-even a decimal magnitude of at least
`2 ^ 1024 - 2 ^ 970` (the midpoint between the largest finite double
and `2 ^ 1024`) rounds to infinity, which is what Python's `float(...)`
returns for such literals: `float("1e999") = inf` with no exception. -/
def overflowBound : ℚ := mkRat ((2 ^ 1024 - 2 ^ 970 : ℕ) : ℤ) 1

/-- Numeric value of a parsed literal: a literal whose magnitude
reaches the IEEE-double overflow threshold is the corresponding signed
infinity (as from Python's `float(...)`); below it the rational
`sign · (ip + fp / 10 ^ nf) · 10 ^ e`, kept exact in the rational
model. -/
def litVal (sg : Bool) : PyLit → PyFloat
  | .num ip fp nf e =>
    if overflowBound ≤ numMag ip fp nf e then (if sg then .ninf else .pinf)
    else
      .fin (mkRat ((if sg then -1 else 1) * (((ip * 10 ^ nf + fp) * 10 ^ e.toNat : ℕ) : ℤ))
        (10 ^ nf * 10 ^ (-e).toNat))
  | .inf => if sg then .ninf else .pinf
  | .nan => .nan

/-- Model of Python's `float(s)` on a string; `none` models a raised
`ValueError`. -/
def pyParse (s : String) : Option PyFloat :=
  (pyLit s).map (fun p => litVal p.1 p.2)

/-- Python `str.replace` with a one-character pattern and one-character
replacement is a character map. -/
def charReplace (a b : Char) (s : String) : String :=
  ⟨s.data.map (fun c => if c = a then b else c)⟩

/-- Remove every occurrence of the two-character substring `R$`
(left-to-right, non-overlapping, exactly as `str.replace("R$", "")`). -/
def stripRS (l : List Char) : List Char :=
  match l with
  | c :: d :: rest => if c = 'R' ∧ d = '$' then stripRS rest else c :: stripRS (d :: rest)
  | l => l

/-- The cleaning pipeline of `safe_float` on strings:
`v.replace("R$", "").replace(".", "").replace(",", ".").strip()`. -/
def cleanStr (s : String) : String :=
  ⟨trimWS (((stripRS s.data).filter (fun c => c ≠ '.')).map
    (fun c => if c = ',' then '.' else c))⟩

/-- The function `safe_float` from `app.py`: sentinel values map to the default `0.0`;
strings are cleaned and passed to `float(...)`; non-string non-numeric
values make `float(...)` raise, which the bare `except` turns into the
default. -/
def safe_float (v : Value) : PyFloat :=
  match v with
  | .vNone => .fin 0
  | .vStr s =>
    if s = "" ∨ s = "—" ∨ s = "-" then .fin 0
    else
      match pyParse (cleanStr s) with
      | some x => x
      | none => .fin 0
  | .vNum q => .fin q
  | .vOther => .fin 0

/-- The value of a most-significant-first digit list. -/
def digitsToNat (l : List Char) : ℕ :=
  l.foldl (fun x c => 10 * x + digitVal c) 0

/-- A list whose head can neither continue nor restart a digit run. -/
def stopsRun : List Char → Prop
  | [] => True
  | c :: _ => c.isDigit = false ∧ c ≠ '_'

/-- Projection of the float model onto its finite values. -/
def toFinite : PyFloat → Option ℚ
  | .fin q => some q
  | _ => none

/-- Round half-to-even of a rational to an integer, computed on the
numerator and denominator: `t / q.den` is the fractional part of `q`,
and the three branches are below-half, above-half, and the tie broken to
the even neighbour. -/
def rhe (q : ℚ) : ℤ :=
  let f := q.floor
  let t := q.num - f * q.den
  if 2 * t < (q.den : ℤ) then f
  else if (q.den : ℤ) < 2 * t then f + 1
  else if f % 2 = 0 then f else f + 1

/-- The function `round2` from `app.py`: `float(f"{v:.2f}")`, i.e. the value rounded
half-to-even at the second decimal place.  `mkRat (q.num * 100) q.den`
is `100 · q`; the `try/except` cannot fire on numeric input. -/
def round2 (q : ℚ) : ℚ := mkRat (rhe (mkRat (q.num * 100) q.den)) 100

/-- Python `int(...)` of a finite float: truncation toward zero
(`Int.tdiv` is the toward-zero division). -/
def ratTrunc (q : ℚ) : ℤ := q.num.tdiv q.den

/-- Python `int(...)` on the float model: `int` raises `OverflowError` or
`ValueError` on a non-finite float, modelled by `none`. -/
def pyInt : PyFloat → Option ℤ
  | .fin q => some (ratTrunc q)
  | _ => none

/-- The raw shape of one campaign object in the request payload. -/
structure RawCamp where
  name : Option String
  status : Option String
  spend : Value
  impressions : Value
  reach : Value
  results : Value
  cpa : Value
  roas : Value
  conversations : Value
deriving DecidableEq, Repr

/-- One sanitized campaign as built by `construir_narrativa`
(`app.py` lines 91-101). -/
structure Camp where
  name : String
  status : String
  spend : ℚ
  impressions : ℤ
  reach : ℤ
  results : ℤ
  cpa : ℚ
  roas : ℚ
  conversations : ℤ
deriving DecidableEq, Repr

/-- Model of `payload.get(k) or default` on string fields: `None` and the empty
string are falsy. -/
def orDefault (v : Option String) (d : String) : String :=
  match v with
  | some s => if s = "" then d else s
  | none => d

/-- Python `str.strip()` (ASCII-whitespace fragment). -/
def pyStrip (s : String) : String := ⟨trimWS s.data⟩

/-- One entry of the sanitization loop of `construir_narrativa`
(`app.py` lines 90-101).  `int(...)` raises on a non-finite float, which
aborts the whole request: modelled by `none`.  Python would carry a
non-finite `spend`/`cpa`/`roas` through; the rational model keeps those
fields only in the finite case, so such payloads are also `none` here
(the non-finite escape itself is the subject of the `safe_float`
theorems). -/
def sanitizeCamp (c : RawCamp) : Option Camp :=
  match toFinite (safe_float c.spend), pyInt (safe_float c.impressions),
      pyInt (safe_float c.reach), pyInt (safe_float c.results),
      toFinite (safe_float c.cpa), toFinite (safe_float c.roas),
      pyInt (safe_float c.conversations) with
  | some sp, some im, some re, some rs, some cp, some ro, some cv =>
    some (Camp.mk (orDefault c.name "Campanha") (pyStrip (orDefault c.status ""))
      (round2 sp) im re rs (round2 cp) (round2 ro) cv)
  | _, _, _, _, _, _, _ => none

/-- The sanitization loop over the whole campaign list. -/
def sanitizeAll (l : List RawCamp) : Option (List Camp) := l.mapM sanitizeCamp

/-- Model of `total_spend = round2(sum(...))` (`app.py` line 103). -/
def totalSpend (camps : List Camp) : ℚ := round2 ((camps.map Camp.spend).sum)

/-- Model of `total_impr` (`app.py` line 104). -/
def totalImpr (camps : List Camp) : ℤ := (camps.map Camp.impressions).sum

/-- Model of `total_results` (`app.py` line 105). -/
def totalResults (camps : List Camp) : ℤ := (camps.map Camp.results).sum

/-- The weighted average CPA `cpa_medio` (`app.py` lines 108-111):
`round2(sum(cpa·results over results>0) / max(1, total_results))` when
`total_results > 0`, else `0.0`. -/
def cpaMedio (camps : List Camp) : ℚ :=
  if 0 < totalResults camps then
    round2 ((((camps.filter (fun c => 0 < c.results)).map
      (fun c => c.cpa * (c.results : ℚ))).sum) / ((max 1 (totalResults camps) : ℤ) : ℚ))
  else 0

/-- Modelled from the spec (§4.5 step 6), for comparison with the code:
the weighted CPA `Σ(cpa_i · results_i) / Σ(results_i)` restricted to
campaigns with positive results. -/
def specWeightedCpa (camps : List Camp) : ℚ :=
  ((camps.filter (fun c => 0 < c.results)).map (fun c => c.cpa * (c.results : ℚ))).sum /
    ((((camps.filter (fun c => 0 < c.results)).map Camp.results).sum : ℤ) : ℚ)

/-- Campaign list for the C2 counterexample: two positive-results
campaigns whose weighted CPA `4/3` is not representable in two
decimals. -/
def csC2 : List Camp :=
  [⟨"A", "", 0, 0, 0, 2, 1, 0, 0⟩, ⟨"B", "", 0, 0, 0, 1, 2, 0, 0⟩]

/-- The spec's own weighted-CPA example list:
`[{results:10, cpa:2.0}, {results:0, cpa:1.0}]`. -/
def csC2ex : List Camp :=
  [⟨"A", "", 0, 0, 0, 10, 2, 0, 0⟩, ⟨"B", "", 0, 0, 0, 0, 1, 0, 0⟩]

/-- Concrete raw campaign for the C10 witness: fractional results `2,9`
and a three-decimal spend `10,505`. -/
def rawC10 : RawCamp :=
  ⟨some "X", none, .vStr "10,505", .vNum 100, .vNum 0, .vStr "2,9", .vNum 1, .vNum 0,
    .vNum 0⟩

/-- The sanitized image of `rawC10`. -/
def campC10 : Camp := ⟨"X", "", mkRat 21 2, 100, 0, 2, 1, 0, 0⟩

/-- Decimal digits of a natural number, most significant first. -/
def natDigits (n : ℕ) : List Char := Nat.toDigits 10 n

/-- Insert `,` thousands separators into a reversed digit list, every
three digits. -/
def group3 : List Char → List Char
  | d1 :: d2 :: d3 :: d4 :: rest => d1 :: d2 :: d3 :: ',' :: group3 (d4 :: rest)
  | l => l

/-- Python `f"{i:,}"` on an integer: optional sign, comma-grouped
digits. -/
def intComma (i : ℤ) : String :=
  (if i < 0 then "-" else "") ++ ⟨(group3 (natDigits i.natAbs).reverse).reverse⟩

/-- Fixed two-decimal rendering of the nonnegative hundredth count `n`
(the value `n / 100`), with optional thousands grouping and sign. -/
def fixed2 (grouped : Bool) (neg : Bool) (n : ℕ) : String :=
  let ip := n / 100
  let fp := n % 100
  let ipd := if grouped then (group3 (natDigits ip).reverse).reverse else natDigits ip
  (if neg then "-" else "") ++ ⟨ipd⟩ ++ "." ++ (if fp < 10 then "0" else "") ++ ⟨natDigits fp⟩

/-- Python `f"{q:,.2f}"` on a finite float value: round half-even to
hundredths, render sign, grouped integer digits, two fraction digits. -/
def pyFormatComma2 (q : ℚ) : String :=
  fixed2 true (q < 0) (rhe (mkRat ((q.num.natAbs : ℤ) * 100) q.den)).toNat

/-- Python `f"{q:.2f}"`: as above without thousands grouping. -/
def pyFormat2 (q : ℚ) : String :=
  fixed2 false (q < 0) (rhe (mkRat ((q.num.natAbs : ℤ) * 100) q.den)).toNat

/-- The separator swap
`.replace(",", "X").replace(".", ",").replace("X", ".")` used by
`br_money` and `pct`. -/
def swapSeps (s : String) : String :=
  charReplace 'X' '.' (charReplace '.' ',' (charReplace ',' 'X' s))

/-- The function `br_money` from `app.py`: `f"R$ {x:,.2f}"` with the Brazilian
separator swap (the `try/except` cannot fire on numeric input). -/
def br_money (x : ℚ) : String := swapSeps ("R$ " ++ pyFormatComma2 x)

/-- The function `pct` from `app.py`: `d = d or 0` is the identity on numbers, a
non-positive denominator short-circuits to `"0,00%"`, otherwise
`f"{100.0 * (n / d):,.2f}%"` with the separator swap. -/
def pct (n d : ℚ) : String :=
  if d ≤ 0 then "0,00%" else swapSeps (pyFormatComma2 (100 * (n / d)) ++ "%")

/-- The numeric ratio guarded inside `pct`: `0` for a non-positive
denominator, else `100 · (n / d)`. -/
def pctVal (n d : ℚ) : ℚ := if d ≤ 0 then 0 else 100 * (n / d)

/-- One step of the best-CPA scan (`app.py` lines 116-119): only
campaigns with positive results compete, and only a strictly smaller CPA
replaces the current best. -/
def melhorStep (acc : Option Camp) (c : Camp) : Option Camp :=
  if 0 < c.results then
    match acc with
    | none => some c
    | some b => if c.cpa < b.cpa then some c else some b
  else acc

/-- Model of `camp_melhor_cpa` (`app.py` lines 114-119). -/
def melhorCpa (camps : List Camp) : Option Camp := camps.foldl melhorStep none

/-- One step of the highest-volume scan (`app.py` lines 120-121): only a
strictly larger results count replaces the current best.  The source
runs both scans in one loop; they touch disjoint state, so they are two
folds here. -/
def maiorStep (acc : Option Camp) (c : Camp) : Option Camp :=
  match acc with
  | none => some c
  | some b => if b.results < c.results then some c else some b

/-- Model of `camp_mais_result` (`app.py` lines 115-121). -/
def maisResult (camps : List Camp) : Option Camp := camps.foldl maiorStep none

/-- The request payload fields read by `construir_narrativa`. -/
structure Payload where
  brand : Option String
  channel : Option String
  period : Option String
  observations : Option String
  campaigns : List RawCamp
deriving DecidableEq, Repr

/-- The two header lines (`app.py` lines 126-127). -/
def cabecalhoLines (p : Payload) : List String :=
  ["# Relatório de Desempenho — " ++ orDefault p.brand "sua marca",
   "_Canal:_ **" ++ orDefault p.channel "META" ++ "**  •  _Período:_ **" ++
     orDefault p.period "Último período" ++ "**\n"]

/-- The overview totals line (`app.py` lines 131-134); the final
`.replace(",", ".")` is applied to the whole formatted line. -/
def overviewLine (camps : List Camp) : String :=
  charReplace ',' '.'
    ("O investimento total observado foi de **" ++ br_money (totalSpend camps) ++
      "**, com **" ++ intComma (totalImpr camps) ++ "** impressões e **" ++
      toString (totalResults camps) ++ "** resultados.")

/-- The average-CPA line (`app.py` line 136). -/
def cpaLine (camps : List Camp) : String :=
  "O **CPA médio** ficou em **" ++ br_money (cpaMedio camps) ++ "**."

/-- The line shown when no average CPA can be computed
(`app.py` line 138). -/
def noCpaLine : String :=
  "Ainda não há resultados suficientes para calcular **CPA médio** de forma confiável."

/-- The overview section (`app.py` lines 130-138). -/
def visaoGeralLines (camps : List Camp) : List String :=
  ["## Visão Geral", overviewLine camps] ++
    (if 0 < totalResults camps then [cpaLine camps] else [noCpaLine])

/-- The static metrics-glossary section (`app.py` lines 141-148). -/
def metricasLines : List String :=
  ["\n## Métricas — O que observar",
   "- **Gasto**: verba investida por campanha.\n- **Impressões**: quantas vezes seus anúncios foram exibidos.\n- **Resultados**: ações geradas (ex.: conversas, leads, cliques, compras), conforme seu objetivo.\n- **CPA**: custo por resultado; quanto menor, mais eficiente.\n- **ROAS**: retorno sobre gasto; acima de 1, indica retorno positivo em campanhas de compra."]

/-- The best-efficiency highlight entry (`app.py` lines 153-156). -/
def effLine (c : Camp) : String :=
  "- **Maior eficiência (melhor CPA)**: “" ++ c.name ++ "” com CPA **" ++ br_money c.cpa ++
    "** e **" ++ toString c.results ++ "** resultados."

/-- The highest-volume highlight entry (`app.py` lines 158-160). -/
def volLine (c : Camp) : String :=
  "- **Maior volume de resultados**: “" ++ c.name ++ "” com **" ++ toString c.results ++
    "** resultados."

/-- The no-campaigns highlight entry (`app.py` line 162). -/
def semCampLine : String := "- Sem campanhas processadas no período."

/-- The best-efficiency highlight, emitted only when the scan found a
campaign, re-checking `results > 0` as the code does
(`app.py` line 152). -/
def destaquesEff (camps : List Camp) : List String :=
  match melhorCpa camps with
  | some b => if 0 < b.results then [effLine b] else []
  | none => []

/-- The highest-volume highlight (`app.py` line 157). -/
def destaquesVol (camps : List Camp) : List String :=
  match maisResult camps with
  | some b => [volLine b]
  | none => []

/-- The highlights section (`app.py` lines 151-162). -/
def destaquesLines (camps : List Camp) : List String :=
  ["\n## Destaques"] ++ destaquesEff camps ++ destaquesVol camps ++
    (if camps = [] then [semCampLine] else [])

/-- The three per-campaign recommendation buckets. -/
inductive Bucket where
  | scale
  | noConv
  | insufficient
deriving DecidableEq, Repr

/-- The `if / elif / else` classification (`app.py` lines 169-179). -/
def classify (c : Camp) : Bucket :=
  if 0 < c.results ∧ 0 < c.cpa then .scale
  else if c.results = 0 ∧ 0 < c.impressions then .noConv
  else .insufficient

/-- The recommendation text of each bucket (`app.py` lines 170-179). -/
def bucketLine (c : Camp) : Bucket → String
  | .scale =>
    "- Bons sinais de tração. Avaliar **incremento gradual de verba** mantendo a eficiência de **" ++
      br_money c.cpa ++ "** por resultado."
  | .noConv =>
    "- Há entrega (impressões), porém sem conversões. Sugestão: revisar **objetivo da campanha** e **criativos** (benefício + urgência leve) e afinar **públicos/segmentação**."
  | .insufficient =>
    "- Sem dados suficientes; considerar **reativar/testar** com segmentação e objetivo alinhados."

/-- The optional per-campaign ROAS note (`app.py` lines 181-182). -/
def roasLine (c : Camp) : String :=
  "- ROAS atual: **" ++ pyFormat2 c.roas ++ "** — acompanhar margem e cesta de produtos/serviços."

/-- One campaign's recommendation block (`app.py` lines 166-183): name,
bucket text, optional ROAS note, blank line. -/
def campBlock (c : Camp) : List String :=
  ["**" ++ c.name ++ "**", bucketLine c (classify c)] ++
    (if 0 < c.roas then [roasLine c] else []) ++ [""]

/-- The per-campaign recommendations section (`app.py` lines 165-183). -/
def recomendacoesLines (camps : List Camp) : List String :=
  ["\n## Recomendações por Campanha"] ++ (camps.map campBlock).flatten

/-- The static next-steps section (`app.py` lines 186-193). -/
def proximosLines : List String :=
  ["## Próximos Passos (prioridades)",
   "- **Escalar** campanhas com melhor CPA/resultado de forma **gradual** (evita perder eficiência).\n- **Testes A/B** de criativos e chamadas (promessa tangível + benefício claro).\n- **Retargeting** em quem engajou/visitou para elevar a taxa de conversão.\n- **Frequência e CTR**: monitorar para evitar fadiga e preservar performance.\n- **Acompanhamento semanal** dos KPIs com ajustes táticos."]

/-- The optional verbatim client-observations section
(`app.py` lines 195-197); a missing or empty observation is falsy. -/
def observacoesLines (p : Payload) : List String :=
  if orDefault p.observations "" = "" then []
  else ["\n## Observações do Cliente", orDefault p.observations ""]

/-- The closing optimistic-summary line (`app.py` lines 200-202, one
string built from adjacent literals). -/
def resumoLines : List String :=
  ["\n---\n**Resumo otimista:** os dados mostram pontos de tração reais. Com pequenos ajustes de orçamento, criativos e segmentação, há espaço para crescer com segurança mantendo eficiência."]

/-- The full `linhas` list of `construir_narrativa`, in append order. -/
def linhasOf (p : Payload) (camps : List Camp) : List String :=
  cabecalhoLines p ++ visaoGeralLines camps ++ metricasLines ++ destaquesLines camps ++
    recomendacoesLines camps ++ proximosLines ++ observacoesLines p ++ resumoLines

/-- Model of `construir_narrativa` (`app.py` lines 58-204): sanitize the
campaigns, build the lines, join with newlines.  `none` models the
exception that `int(...)` raises on a non-finite sanitized value. -/
def construir_narrativa (p : Payload) : Option String :=
  (sanitizeAll p.campaigns).map (fun camps => String.intercalate "\n" (linhasOf p camps))

/-- The three recommendation texts a campaign can receive. -/
def bucketTexts (c : Camp) : List String :=
  [bucketLine c .scale, bucketLine c .noConv, bucketLine c .insufficient]

/-- Concrete empty payload for the C6 witness. -/
def pEmptyC6 : Payload := ⟨none, none, none, none, []⟩

/-- Concrete one-campaign payload for the C7 witness. -/
def pC7 : Payload :=
  ⟨some "Volxo", some "META", some "7d", none,
    [⟨some "A", none, .vNum 10, .vNum 100, .vNum 0, .vNum 5, .vNum 2, .vNum 0, .vNum 0⟩]⟩

/-- The sanitized campaign list of `pC7`. -/
def csC7 : List Camp := [⟨"A", "", 10, 100, 0, 5, 2, 0, 0⟩]

/-- Concrete payload for the C9 witness. -/
def pC9 : Payload := ⟨some "Volxo", some "META", some "7d", none, []⟩

/-- Sanity check: below the overflow threshold, the `mkRat` packaging
in `litVal` is the ordinary field expression
`sign · (ip + fp / 10 ^ nf) · 10 ^ e`. -/
theorem litVal_num (sg : Bool) (ip fp nf : ℕ) (e : ℤ)
    (hov : numMag ip fp nf e < overflowBound) :
    litVal sg (.num ip fp nf e) =
      .fin ((if sg then (-1 : ℚ) else 1) * ((ip : ℚ) + (fp : ℚ) / 10 ^ nf) * 10 ^ e) := by
  have h : litVal sg (.num ip fp nf e) =
      .fin (mkRat ((if sg then -1 else 1) * (((ip * 10 ^ nf + fp) * 10 ^ e.toNat : ℕ) : ℤ))
        (10 ^ nf * 10 ^ (-e).toNat)) := by
    rw [show litVal sg (.num ip fp nf e) =
      (if overflowBound ≤ numMag ip fp nf e then (if sg then PyFloat.ninf else PyFloat.pinf)
        else .fin (mkRat ((if sg then -1 else 1) * (((ip * 10 ^ nf + fp) * 10 ^ e.toNat : ℕ) : ℤ))
          (10 ^ nf * 10 ^ (-e).toNat))) from rfl]
    rw [if_neg (not_le.mpr hov)]
  rw [h]
  congr 1
  rw [Rat.mkRat_eq_div]
  push_cast
  rw [div_eq_iff (by positivity)]
  have h10 : (10 : ℚ) ^ e = 10 ^ e.toNat / 10 ^ (-e).toNat := by
    rcases le_or_lt 0 e with h2 | h2
    · rw [Int.toNat_eq_zero.mpr (by omega : -e ≤ 0), pow_zero, div_one, ← zpow_natCast,
        Int.toNat_of_nonneg h2]
    · have he : e = -((-e).toNat : ℤ) := by omega
      rw [Int.toNat_eq_zero.mpr (by omega : e ≤ 0), pow_zero]
      nth_rewrite 1 [he]
      rw [zpow_neg, zpow_natCast, one_div]
  rw [h10]
  field_simp
  split <;> ring

/-- Evaluation checks of the normalizer model against observed
`safe_float` behaviour on concrete inputs. -/
theorem safe_float_eval_checks :
    safe_float (.vStr "1.234,56") = .fin (mkRat 123456 100) ∧
    safe_float (.vStr "1,234.56") = .fin (mkRat 123456 100000) ∧
    safe_float (.vStr "R$ 10,50") = .fin (mkRat 105 10) ∧
    safe_float (.vStr "3.14") = .fin 314 ∧
    safe_float (.vStr "inf") = .pinf ∧
    safe_float (.vStr "-2,5") = .fin (mkRat (-5) 2) ∧
    safe_float (.vStr "1_000") = .fin 1000 ∧
    safe_float (.vStr "1_") = .fin 0 ∧
    safe_float (.vStr "—") = .fin 0 ∧
    safe_float (.vStr "1e2") = .fin 100 ∧
    safe_float (.vStr "2.5e-1") = .fin (mkRat 5 2) := by
  decide

/-- A digit character is one of the ten ASCII digits. -/
theorem digit_mem (c : Char) (h : c.isDigit = true) :
    c ∈ ['0', '1', '2', '3', '4', '5', '6', '7', '8', '9'] := by
  simp [Char.isDigit, UInt32.le_def, BitVec.le_def] at h
  obtain ⟨hlo, hhi⟩ : 48 ≤ c.toNat ∧ c.toNat ≤ 57 := by
    simpa [Char.toNat, UInt32.toNat] using h
  have h3 : Char.ofNat c.toNat = c := Char.ofNat_toNat c
  interval_cases hc : c.toNat <;> rw [← h3] <;> decide

/-- Lowercasing fixes digits. -/
theorem toLower_digit (c : Char) (h : c.isDigit = true) : c.toLower = c := by
  have hm := digit_mem c h
  fin_cases hm <;> decide

/-- The run scanner `runAux` consumes exactly a leading block of digits. -/
theorem runAux_digits (a : List Char) (r : List Char) (acc n : ℕ)
    (ha : ∀ c ∈ a, c.isDigit = true) (hr : stopsRun r) :
    runAux (a ++ r) acc n =
      (a.foldl (fun x c => 10 * x + digitVal c) acc, n + a.length, r) := by
  revert ha
  induction a generalizing acc n with
  | nil =>
    intro _
    cases r with
    | nil => simp [runAux]
    | cons c r2 =>
      obtain ⟨h1, h2⟩ : c.isDigit = false ∧ c ≠ '_' := hr
      simp [runAux, h1, h2]
  | cons c a2 ih =>
    intro ha
    have hc : c.isDigit = true := ha c (by simp)
    simp only [List.cons_append, runAux, hc, if_true, List.foldl_cons, List.append_eq]
    rw [ih _ _ (fun x hx => ha x (by simp [hx]))]
    simp only [List.length_cons, Prod.mk.injEq, true_and, and_true]
    omega

/-- The side facts about a digit character that the parsing lemmas use:
it is none of the structural characters of the pipeline. -/
theorem digit_props (c : Char) (h : c.isDigit = true) :
    c ≠ 'R' ∧ c ≠ '.' ∧ c ≠ ',' ∧ c ≠ '_' ∧ c ≠ '+' ∧ c ≠ '-' ∧ c ≠ '—' ∧
      isPySpace c = false ∧ c.toLower ≠ 'i' ∧ c.toLower ≠ 'n' := by
  have hm := digit_mem c h
  fin_cases hm <;> exact (by decide)

/-- Evaluation of `readRun` on a leading digit block. -/
theorem readRun_digits (a r : List Char) (h0 : a ≠ []) (ha : ∀ c ∈ a, c.isDigit = true)
    (hr : stopsRun r) : readRun (a ++ r) = (digitsToNat a, a.length, r) := by
  cases a with
  | nil => exact absurd rfl h0
  | cons c a2 =>
    have hc : c.isDigit = true := ha c (by simp)
    simp only [List.cons_append, readRun, hc, if_true]
    rw [← List.cons_append, runAux_digits _ _ _ _ ha hr]
    simp [digitsToNat]

/-- The scanner `stripRS` fixes strings without an `R`. -/
theorem stripRS_eq (l : List Char) (h : ∀ c ∈ l, c ≠ 'R') : stripRS l = l := by
  induction l with
  | nil => rfl
  | cons c rest ih =>
    cases rest with
    | nil => simp [stripRS]
    | cons d rest2 =>
      have hc : c ≠ 'R' := h c (by simp)
      simp only [stripRS]
      rw [if_neg (by tauto)]
      exact congrArg _ (ih (fun x hx => h x (by simp [hx])))

/-- The trimmer `trimWS` fixes strings without whitespace. -/
theorem trimWS_eq (l : List Char) (h : ∀ c ∈ l, isPySpace c = false) : trimWS l = l := by
  have aux : ∀ m : List Char, (∀ c ∈ m, isPySpace c = false) → m.dropWhile isPySpace = m := by
    intro m hm
    cases m with
    | nil => rfl
    | cons c r => exact List.dropWhile_cons_of_neg (by simp [hm c (by simp)])
  unfold trimWS
  rw [aux l h, aux l.reverse (fun c hc => h c (List.mem_reverse.mp hc)), List.reverse_reverse]

/-- Cleaning a `digits , digits` token turns the comma into the decimal
point. -/
theorem cleanStr_comma (a b : List Char) (ha : ∀ c ∈ a, c.isDigit = true)
    (hb : ∀ c ∈ b, c.isDigit = true) :
    cleanStr ⟨a ++ ',' :: b⟩ = ⟨a ++ '.' :: b⟩ := by
  unfold cleanStr
  congr 1
  rw [stripRS_eq _ (by
    intro c hc
    rcases List.mem_append.mp hc with h | h
    · exact (digit_props c (ha c h)).1
    · rcases List.mem_cons.mp h with h | h
      · subst h; decide
      · exact (digit_props c (hb c h)).1)]
  rw [List.filter_eq_self.mpr (by
    intro c hc
    rcases List.mem_append.mp hc with h | h
    · simpa using (digit_props c (ha c h)).2.1
    · rcases List.mem_cons.mp h with h | h
      · subst h; decide
      · simpa using (digit_props c (hb c h)).2.1)]
  rw [List.map_append, List.map_cons]
  have hmap : ∀ m : List Char, (∀ c ∈ m, c.isDigit = true) →
      m.map (fun c => if c = ',' then '.' else c) = m := by
    intro m hm
    induction m with
    | nil => rfl
    | cons c r ih =>
      simp only [List.map_cons, if_neg ((digit_props c (hm c (by simp))).2.2.1)]
      rw [ih (fun x hx => hm x (by simp [hx]))]
  rw [hmap a ha, hmap b hb, if_pos rfl]
  exact trimWS_eq _ (by
    intro c hc
    rcases List.mem_append.mp hc with h | h
    · exact (digit_props c (ha c h)).2.2.2.2.2.2.2.1
    · rcases List.mem_cons.mp h with h | h
      · subst h; decide
      · exact (digit_props c (hb c h)).2.2.2.2.2.2.2.1)

/-- Cleaning a `digits . digits` token drops the dot entirely. -/
theorem cleanStr_dot (a b : List Char) (ha : ∀ c ∈ a, c.isDigit = true)
    (hb : ∀ c ∈ b, c.isDigit = true) :
    cleanStr ⟨a ++ '.' :: b⟩ = ⟨a ++ b⟩ := by
  unfold cleanStr
  congr 1
  rw [stripRS_eq _ (by
    intro c hc
    rcases List.mem_append.mp hc with h | h
    · exact (digit_props c (ha c h)).1
    · rcases List.mem_cons.mp h with h | h
      · subst h; decide
      · exact (digit_props c (hb c h)).1)]
  have hfil : ∀ m : List Char, (∀ c ∈ m, c.isDigit = true) →
      m.filter (fun c => decide (c ≠ '.')) = m := by
    intro m hm
    exact List.filter_eq_self.mpr (fun c hc => by simpa using (digit_props c (hm c hc)).2.1)
  rw [List.filter_append,
    show List.filter (fun c => decide (c ≠ '.')) ('.' :: b) =
      List.filter (fun c => decide (c ≠ '.')) b from List.filter_cons_of_neg (by decide),
    hfil a ha, hfil b hb]
  have hmap : ∀ m : List Char, (∀ c ∈ m, c.isDigit = true) →
      m.map (fun c => if c = ',' then '.' else c) = m := by
    intro m hm
    induction m with
    | nil => rfl
    | cons c r ih =>
      simp only [List.map_cons, if_neg ((digit_props c (hm c (by simp))).2.2.1)]
      rw [ih (fun x hx => hm x (by simp [hx]))]
  rw [List.map_append, hmap a ha, hmap b hb]
  exact trimWS_eq _ (by
    intro c hc
    rcases List.mem_append.mp hc with h | h
    · exact (digit_props c (ha c h)).2.2.2.2.2.2.2.1
    · exact (digit_props c (hb c h)).2.2.2.2.2.2.2.1)

/-- Evaluation of `parseMag` on a `digits . digits` token. -/
theorem parseMag_digits_dot (a b : List Char) (h0 : a ≠ []) (hb0 : b ≠ [])
    (ha : ∀ c ∈ a, c.isDigit = true) (hb : ∀ c ∈ b, c.isDigit = true) :
    parseMag (a ++ '.' :: b) = some (.num (digitsToNat a) (digitsToNat b) b.length 0) := by
  obtain ⟨c, a2, rfl⟩ : ∃ c a2, a = c :: a2 := by
    cases a with
    | nil => exact absurd rfl h0
    | cons c a2 => exact ⟨c, a2, rfl⟩
  have hc : c.isDigit = true := ha c (by simp)
  have hi : c.toLower ≠ 'i' := (digit_props c hc).2.2.2.2.2.2.2.2.1
  have hn : c.toLower ≠ 'n' := (digit_props c hc).2.2.2.2.2.2.2.2.2
  unfold parseMag
  rw [if_neg (by
    simp only [List.cons_append, List.map_cons]
    rintro (h | h) <;> simp only [List.cons.injEq] at h <;> exact hi h.1)]
  rw [if_neg (by
    simp only [List.cons_append, List.map_cons]
    intro h
    simp only [List.cons.injEq] at h
    exact hn h.1)]
  rw [readRun_digits (c :: a2) ('.' :: b) (by simp) ha ⟨by decide, by decide⟩]
  simp only [parseFrac]
  rw [show b = b ++ [] from (List.append_nil b).symm,
    readRun_digits b [] hb0 hb trivial]
  rw [if_neg (by simp)]
  simp [parseExp, List.append_nil]

/-- Evaluation of `parseMag` on a pure digit token. -/
theorem parseMag_digits_int (a : List Char) (h0 : a ≠ []) (ha : ∀ c ∈ a, c.isDigit = true) :
    parseMag a = some (.num (digitsToNat a) 0 0 0) := by
  obtain ⟨c, a2, rfl⟩ : ∃ c a2, a = c :: a2 := by
    cases a with
    | nil => exact absurd rfl h0
    | cons c a2 => exact ⟨c, a2, rfl⟩
  have hc : c.isDigit = true := ha c (by simp)
  have hi : c.toLower ≠ 'i' := (digit_props c hc).2.2.2.2.2.2.2.2.1
  have hn : c.toLower ≠ 'n' := (digit_props c hc).2.2.2.2.2.2.2.2.2
  unfold parseMag
  rw [if_neg (by
    simp only [List.map_cons]
    rintro (h | h) <;> simp only [List.cons.injEq] at h <;> exact hi h.1)]
  rw [if_neg (by
    simp only [List.map_cons]
    intro h
    simp only [List.cons.injEq] at h
    exact hn h.1)]
  rw [show (c :: a2) = (c :: a2) ++ [] from (List.append_nil _).symm,
    readRun_digits (c :: a2) [] (by simp) (by simpa using ha) trivial]
  simp only [parseFrac]
  rw [if_neg (by simp)]
  simp [parseExp, List.append_nil]

/-- Evaluation of `pyLit` on a string that starts with a digit: no sign to strip. -/
theorem pyLit_digit_head (l : List Char) (hne : l ≠ []) (hd : headDigit l = true)
    (hsp : ∀ c ∈ l, isPySpace c = false) :
    pyLit ⟨l⟩ = (parseMag l).map (fun m => ((false : Bool), m)) := by
  unfold pyLit
  rw [show (String.mk l).data = l from rfl, trimWS_eq l hsp]
  cases l with
  | nil => exact absurd rfl hne
  | cons c rest =>
    have hc : c.isDigit = true := by simpa [headDigit] using hd
    have hplus : c ≠ '+' := (digit_props c hc).2.2.2.2.1
    have hminus : c ≠ '-' := (digit_props c hc).2.2.2.2.2.1
    split
    next h => exact absurd ((List.cons.inj h.symm).1.symm) hplus
    next h => exact absurd ((List.cons.inj h.symm).1.symm) hminus
    next => rfl

/-- The value of a digit character is at most nine. -/
theorem digitVal_le_nine (c : Char) (h : c.isDigit = true) : digitVal c ≤ 9 := by
  have hm := digit_mem c h
  fin_cases hm <;> decide

/-- The digit fold stays below `(acc + 1) · 10 ^ length`. -/
theorem foldl_digits_lt (l : List Char) (acc : ℕ) (h : ∀ c ∈ l, c.isDigit = true) :
    l.foldl (fun x c => 10 * x + digitVal c) acc < (acc + 1) * 10 ^ l.length := by
  induction l generalizing acc with
  | nil => simpa using Nat.lt_succ_self acc
  | cons c r ih =>
    simp only [List.foldl_cons, List.length_cons]
    have hc := digitVal_le_nine c (h c (by simp))
    refine lt_of_lt_of_le (ih (10 * acc + digitVal c) (fun x hx => h x (by simp [hx]))) ?_
    calc (10 * acc + digitVal c + 1) * 10 ^ r.length
        ≤ 10 * (acc + 1) * 10 ^ r.length := Nat.mul_le_mul_right _ (by omega)
      _ = (acc + 1) * 10 ^ (r.length + 1) := by ring

/-- A digit string of length `n` denotes a value below `10 ^ n`. -/
theorem digitsToNat_lt (l : List Char) (h : ∀ c ∈ l, c.isDigit = true) :
    digitsToNat l < 10 ^ l.length := by
  simpa [digitsToNat] using foldl_digits_lt l 0 h

/-- The literal magnitude at exponent zero as a field expression. -/
theorem numMag_zero_exp (ip fp nf : ℕ) :
    numMag ip fp nf 0 = (ip : ℚ) + (fp : ℚ) / 10 ^ nf := by
  unfold numMag
  rw [show ((ip * 10 ^ nf + fp) * 10 ^ ((0 : ℤ)).toNat : ℕ) = ip * 10 ^ nf + fp from by
      norm_num,
    show (10 ^ nf * 10 ^ ((-(0 : ℤ))).toNat : ℕ) = 10 ^ nf from by norm_num,
    Rat.mkRat_eq_div]
  push_cast
  rw [add_div, mul_div_assoc, div_self (by positivity), mul_one]

/-- The overflow threshold as an integer cast. -/
theorem overflowBound_eq : overflowBound = ((2 ^ 1024 - 2 ^ 970 : ℤ) : ℚ) := by
  rw [overflowBound, Rat.mkRat_eq_div]
  norm_num

/-- A literal with at most 300 integer digits and a proper fraction is
far below the IEEE-double overflow threshold. -/
theorem numMag_small (ip fp nf : ℕ) (h1 : ip < 10 ^ 300) (h2 : fp < 10 ^ nf) :
    numMag ip fp nf 0 < overflowBound := by
  rw [numMag_zero_exp, overflowBound_eq]
  have hfp : (fp : ℚ) / 10 ^ nf < 1 := by
    rw [div_lt_one (by positivity)]
    exact_mod_cast h2
  have hip : (ip : ℚ) < 10 ^ 300 := by exact_mod_cast h1
  have hbig : (10 : ℚ) ^ 300 + 1 ≤ ((2 ^ 1024 - 2 ^ 970 : ℤ) : ℚ) := by
    push_cast
    norm_num
  linarith

/-- Evaluation of `litVal` at exponent zero, positive sign, below the
overflow threshold. -/
theorem litVal_exp_zero (ip fp nf : ℕ) (hov : numMag ip fp nf 0 < overflowBound) :
    litVal false (.num ip fp nf 0) = .fin (mkRat ((ip : ℤ) * 10 ^ nf + fp) (10 ^ nf)) := by
  rw [show litVal false (.num ip fp nf 0) =
    (if overflowBound ≤ numMag ip fp nf 0 then (if false then PyFloat.ninf else PyFloat.pinf)
      else .fin (mkRat ((if false then -1 else 1) *
        (((ip * 10 ^ nf + fp) * 10 ^ ((0 : ℤ)).toNat : ℕ) : ℤ))
        (10 ^ nf * 10 ^ ((-(0 : ℤ))).toNat))) from rfl]
  rw [if_neg (not_le.mpr hov)]
  congr 1
  push_cast
  norm_num

/-- Evaluation of `safe_float` on a `digits , digits` string: the comma is read as the
decimal separator. -/
theorem safe_float_comma (a b : List Char) (h0 : a ≠ []) (hb0 : b ≠ [])
    (ha : ∀ c ∈ a, c.isDigit = true) (hb : ∀ c ∈ b, c.isDigit = true)
    (hov : numMag (digitsToNat a) (digitsToNat b) b.length 0 < overflowBound) :
    safe_float (.vStr ⟨a ++ ',' :: b⟩) =
      .fin (mkRat ((digitsToNat a : ℤ) * 10 ^ b.length + digitsToNat b) (10 ^ b.length)) := by
  obtain ⟨c, a2, rfl⟩ : ∃ c a2, a = c :: a2 := by
    cases a with
    | nil => exact absurd rfl h0
    | cons c a2 => exact ⟨c, a2, rfl⟩
  have hc : c.isDigit = true := ha c (by simp)
  have hdash : c ≠ '—' := (digit_props c hc).2.2.2.2.2.2.1
  have hminus : c ≠ '-' := (digit_props c hc).2.2.2.2.2.1
  have hp : pyParse (cleanStr ⟨(c :: a2) ++ ',' :: b⟩) =
      some (.fin (mkRat ((digitsToNat (c :: a2) : ℤ) * 10 ^ b.length + digitsToNat b)
        (10 ^ b.length))) := by
    rw [cleanStr_comma _ _ ha hb]
    unfold pyParse
    rw [pyLit_digit_head _ (by simp) (by simpa [headDigit] using hc) (by
      intro x hx
      rcases (by simpa using hx : x = c ∨ x ∈ a2 ∨ x = '.' ∨ x ∈ b) with h | h | h | h
      · exact (digit_props x (by rw [h]; exact hc)).2.2.2.2.2.2.2.1
      · exact (digit_props x (ha x (by simp [h]))).2.2.2.2.2.2.2.1
      · rw [h]; decide
      · exact (digit_props x (hb x h)).2.2.2.2.2.2.2.1)]
    rw [parseMag_digits_dot _ _ (by simp) hb0 ha hb]
    simp only [Option.map_some']
    rw [litVal_exp_zero _ _ _ hov]
  simp only [safe_float]
  rw [if_neg (by
    rintro (h | h | h)
    · have hd : (c :: a2) ++ ',' :: b = ([] : List Char) := congrArg String.data h
      simp at hd
    · have hd : (c :: a2) ++ ',' :: b = ['—'] := congrArg String.data h
      rw [List.cons_append] at hd
      exact hdash (List.cons.inj hd).1
    · have hd : (c :: a2) ++ ',' :: b = ['-'] := congrArg String.data h
      rw [List.cons_append] at hd
      exact hminus (List.cons.inj hd).1)]
  rw [hp]

/-- Evaluation of `safe_float` on a `digits . digits` string: the dot is dropped as a
thousands separator. -/
theorem safe_float_dot (a b : List Char) (h0 : a ≠ []) (hb0 : b ≠ [])
    (ha : ∀ c ∈ a, c.isDigit = true) (hb : ∀ c ∈ b, c.isDigit = true)
    (hov : numMag (digitsToNat (a ++ b)) 0 0 0 < overflowBound) :
    safe_float (.vStr ⟨a ++ '.' :: b⟩) = .fin ((digitsToNat (a ++ b) : ℚ)) := by
  obtain ⟨c, a2, rfl⟩ : ∃ c a2, a = c :: a2 := by
    cases a with
    | nil => exact absurd rfl h0
    | cons c a2 => exact ⟨c, a2, rfl⟩
  have hc : c.isDigit = true := ha c (by simp)
  have hdash : c ≠ '—' := (digit_props c hc).2.2.2.2.2.2.1
  have hminus : c ≠ '-' := (digit_props c hc).2.2.2.2.2.1
  have hall : ∀ x ∈ (c :: a2) ++ b, x.isDigit = true := by
    intro x hx
    rcases List.mem_append.mp hx with h | h
    · exact ha x h
    · exact hb x h
  have hp : pyParse (cleanStr ⟨(c :: a2) ++ '.' :: b⟩) =
      some (.fin ((digitsToNat ((c :: a2) ++ b) : ℚ))) := by
    rw [cleanStr_dot _ _ ha hb]
    unfold pyParse
    rw [pyLit_digit_head _ (by simp) (by simpa [headDigit] using hc) (by
      intro x hx
      exact (digit_props x (hall x hx)).2.2.2.2.2.2.2.1)]
    rw [parseMag_digits_int _ (by simp) hall]
    simp only [Option.map_some']
    rw [litVal_exp_zero _ _ _ hov]
    congr 1
    rw [Rat.mkRat_eq_div]
    push_cast
    norm_num
  simp only [safe_float]
  rw [if_neg (by
    rintro (h | h | h)
    · have hd : (c :: a2) ++ '.' :: b = ([] : List Char) := congrArg String.data h
      simp at hd
    · have hd : (c :: a2) ++ '.' :: b = ['—'] := congrArg String.data h
      rw [List.cons_append] at hd
      exact hdash (List.cons.inj hd).1
    · have hd : (c :: a2) ++ '.' :: b = ['-'] := congrArg String.data h
      rw [List.cons_append] at hd
      exact hminus (List.cons.inj hd).1)]
  rw [hp]

/-- C1: the claim that `safe_float` follows the spec's locale rule fails
on the code: because every dot is removed unconditionally, the
dot-and-comma input `"1,234.56"` normalizes to `1.23456`, not to the
claimed `1234.56`. -/
theorem C1_counterexample :
    safe_float (.vStr "1,234.56") = .fin (mkRat 123456 100000) ∧
      safe_float (.vStr "1,234.56") ≠ .fin (1234.56 : ℚ) := by
  refine ⟨by decide, fun h => ?_⟩
  rw [show safe_float (.vStr "1,234.56") = .fin (mkRat 123456 100000) from by decide] at h
  have h2 : (mkRat 123456 100000 : ℚ) = (1234.56 : ℚ) := PyFloat.fin.inj h
  rw [Rat.mkRat_eq_div] at h2
  norm_num at h2

/-- C1 (amended): `safe_float` treats every comma as the decimal
separator and drops every dot as thousands grouping, regardless of which
of the two appears: a `digits , digits` token parses as
`intpart + fracpart / 10 ^ fraclen`, a `digits . digits` token parses as
the concatenated digit string, so `"1.234,56" → 1234.56` and
`"R$ 10,50" → 10.5` as claimed, but `"1,234.56" → 1.23456` and
`"3.14" → 314`. -/
theorem C1_locale_amended :
    (∀ a b : List Char, a ≠ [] → b ≠ [] → a.length + b.length ≤ 300 →
      (∀ c ∈ a, c.isDigit = true) → (∀ c ∈ b, c.isDigit = true) →
      safe_float (.vStr ⟨a ++ ',' :: b⟩) =
        .fin ((digitsToNat a : ℚ) + (digitsToNat b : ℚ) / 10 ^ b.length) ∧
      safe_float (.vStr ⟨a ++ '.' :: b⟩) = .fin ((digitsToNat (a ++ b) : ℚ))) ∧
    safe_float (.vStr "1.234,56") = .fin (1234.56 : ℚ) ∧
    safe_float (.vStr "R$ 10,50") = .fin (10.5 : ℚ) ∧
    safe_float (.vStr "1,234.56") = .fin (1.23456 : ℚ) ∧
    safe_float (.vStr "3.14") = .fin (314 : ℚ) := by
  have hdall : ∀ a b : List Char, (∀ c ∈ a, c.isDigit = true) → (∀ c ∈ b, c.isDigit = true) →
      ∀ c ∈ a ++ b, c.isDigit = true := by
    intro a b ha hb c hc
    rcases List.mem_append.mp hc with h | h
    · exact ha c h
    · exact hb c h
  refine ⟨fun a b h0 hb0 hlen ha hb => ⟨?_, ?_⟩, ?_, ?_, ?_, by decide⟩
  · have hova : numMag (digitsToNat a) (digitsToNat b) b.length 0 < overflowBound :=
      numMag_small _ _ _
        (lt_of_lt_of_le (digitsToNat_lt a ha)
          (Nat.pow_le_pow_right (by norm_num) (by omega)))
        (digitsToNat_lt b hb)
    rw [safe_float_comma a b h0 hb0 ha hb hova]
    congr 1
    rw [Rat.mkRat_eq_div]
    push_cast
    rw [add_div, mul_div_assoc, div_self (by positivity), mul_one]
  · have hovd : numMag (digitsToNat (a ++ b)) 0 0 0 < overflowBound :=
      numMag_small _ _ _
        (lt_of_lt_of_le (digitsToNat_lt (a ++ b) (hdall a b ha hb))
          (Nat.pow_le_pow_right (by norm_num) (by simp only [List.length_append]; omega)))
        (by norm_num)
    exact safe_float_dot a b h0 hb0 ha hb hovd
  · rw [show safe_float (.vStr "1.234,56") = .fin (mkRat 123456 100) from by decide]
    congr 1
    rw [Rat.mkRat_eq_div]
    norm_num
  · rw [show safe_float (.vStr "R$ 10,50") = .fin (mkRat 105 10) from by decide]
    congr 1
    rw [Rat.mkRat_eq_div]
    norm_num
  · rw [show safe_float (.vStr "1,234.56") = .fin (mkRat 123456 100000) from by decide]
    congr 1
    rw [Rat.mkRat_eq_div]
    norm_num

/-- Witness for the amended C1 at the concrete input `"1,5"`. -/
theorem C1_locale_amended_witness :
    safe_float (.vStr ⟨['1'] ++ ',' :: ['5']⟩) =
      .fin ((digitsToNat ['1'] : ℚ) + (digitsToNat ['5'] : ℚ) / 10 ^ (['5'] : List Char).length) :=
  (C1_locale_amended.1 ['1'] ['5'] (by decide) (by decide) (by decide) (by decide) (by decide)).1

/-- C8: the claim that `safe_float` always returns a finite float fails
in two ways: Python's `float("inf")` succeeds, and `float(...)` also
overflows on numeric literals beyond the IEEE-double range, so both
`"inf"` and `"1e999"` come back as positive infinity, not a finite
value. -/
theorem C8_counterexample :
    safe_float (.vStr "inf") = .pinf ∧ toFinite (safe_float (.vStr "inf")) = none ∧
      safe_float (.vStr "1e999") = .pinf ∧ toFinite (safe_float (.vStr "1e999")) = none := by
  refine ⟨by decide, by decide, by decide, by decide⟩

/-- C8 (amended): `safe_float` is total — the sentinels `None`, `""`,
`"—"`, `"-"` give `0.0`, unparseable cleaned tokens give `0.0`,
non-string non-numeric values give `0.0`, numbers pass through — and the
result is finite except when the cleaned token is an `inf`/`nan` word
accepted by `float(...)`, or a numeric literal whose magnitude reaches
the IEEE-double overflow threshold, which `float(...)` turns into an
infinity (`float("1e999") = inf`). -/
theorem C8_total_amended :
    safe_float .vNone = .fin 0 ∧
    safe_float (.vStr "") = .fin 0 ∧
    safe_float (.vStr "—") = .fin 0 ∧
    safe_float (.vStr "-") = .fin 0 ∧
    safe_float .vOther = .fin 0 ∧
    (∀ q, safe_float (.vNum q) = .fin q) ∧
    (∀ s, pyParse (cleanStr s) = none → safe_float (.vStr s) = .fin 0) ∧
    (∀ v, (∀ q, safe_float v ≠ .fin q) →
      ∃ s, v = .vStr s ∧ ∃ sg l, pyLit (cleanStr s) = some (sg, l) ∧
        (l = .inf ∨ l = .nan ∨
          ∃ ip fp nf e, l = .num ip fp nf e ∧ overflowBound ≤ numMag ip fp nf e)) ∧
    safe_float (.vStr "1e999") = .pinf ∧
    safe_float (.vStr "-1e999") = .ninf := by
  refine ⟨rfl, rfl, rfl, rfl, rfl, fun q => rfl, fun s h => ?_, fun v hv => ?_,
    by decide, by decide⟩
  · simp only [safe_float]
    by_cases hs : s = "" ∨ s = "—" ∨ s = "-"
    · rw [if_pos hs]
    · rw [if_neg hs, h]
  · cases v with
    | vNone => exact absurd rfl (hv 0)
    | vNum q => exact absurd rfl (hv q)
    | vOther => exact absurd rfl (hv 0)
    | vStr s =>
      refine ⟨s, rfl, ?_⟩
      by_cases hs : s = "" ∨ s = "—" ∨ s = "-"
      · exact absurd (by simp [safe_float, hs]) (hv 0)
      · rcases hl : pyLit (cleanStr s) with _ | ⟨sg, l⟩
        · have : safe_float (.vStr s) = .fin 0 := by
            simp only [safe_float]
            rw [if_neg hs]
            unfold pyParse
            rw [hl]
            rfl
          exact absurd this (hv 0)
        · refine ⟨sg, l, rfl, ?_⟩
          have hsf : safe_float (.vStr s) = litVal sg l := by
            simp only [safe_float]
            rw [if_neg hs]
            unfold pyParse
            rw [hl]
            rfl
          cases l with
          | num ip fp nf e =>
            by_cases hov : overflowBound ≤ numMag ip fp nf e
            · exact Or.inr (Or.inr ⟨ip, fp, nf, e, rfl, hov⟩)
            · refine absurd ?_ (hv (mkRat ((if sg then -1 else 1) *
                (((ip * 10 ^ nf + fp) * 10 ^ e.toNat : ℕ) : ℤ)) (10 ^ nf * 10 ^ (-e).toNat)))
              rw [hsf, show litVal sg (.num ip fp nf e) =
                (if overflowBound ≤ numMag ip fp nf e then
                  (if sg then PyFloat.ninf else PyFloat.pinf)
                  else .fin (mkRat ((if sg then -1 else 1) *
                    (((ip * 10 ^ nf + fp) * 10 ^ e.toNat : ℕ) : ℤ))
                    (10 ^ nf * 10 ^ (-e).toNat))) from rfl, if_neg hov]
          | inf => simp
          | nan => simp

/-- Witness for the amended C8 at the unparseable concrete input
`"abc"`. -/
theorem C8_total_amended_witness : safe_float (.vStr "abc") = .fin 0 :=
  C8_total_amended.2.2.2.2.2.2.1 "abc" (by decide)

/-- Sanity check: the `mkRat` packaging in `round2` is
`rhe (100 · q) / 100`. -/
theorem round2_eq (q : ℚ) : round2 q = (rhe (100 * q) : ℚ) / 100 := by
  have h : mkRat (q.num * 100) q.den = 100 * q := by
    rw [Rat.mkRat_eq_div]
    push_cast
    rw [mul_comm (q.num : ℚ), mul_div_assoc, Rat.num_div_den]
  rw [round2, h, Rat.mkRat_eq_div]
  norm_num

/-- Evaluation checks of truncation and two-decimal rounding. -/
theorem round_trunc_eval_checks :
    ratTrunc (mkRat 29 10) = 2 ∧ ratTrunc (mkRat (-29) 10) = -2 ∧
    round2 (mkRat 2101 200) = mkRat 21 2 ∧ round2 (mkRat 1 75) = mkRat 1 100 := by
  decide

/-- On nonnegative rationals, truncation is the floor. -/
theorem ratTrunc_nonneg (q : ℚ) (h : 0 ≤ q) : ratTrunc q = ⌊q⌋ := by
  rw [ratTrunc, Rat.floor_def]
  exact Int.tdiv_eq_ediv (Rat.num_nonneg.mpr h) (by positivity)

/-- Truncation commutes with negation. -/
theorem ratTrunc_neg (q : ℚ) : ratTrunc (-q) = -(ratTrunc q) := by
  rw [ratTrunc, ratTrunc, Rat.num_neg_eq_neg_num, Rat.den_neg_eq_den, Int.neg_tdiv]

/-- Truncation toward zero: the integer sits between `q` and `q` rounded
away from one, on the origin side. -/
theorem ratTrunc_bounds (q : ℚ) :
    (0 ≤ q → (ratTrunc q : ℚ) ≤ q ∧ q < (ratTrunc q : ℚ) + 1) ∧
      (q ≤ 0 → q ≤ (ratTrunc q : ℚ) ∧ (ratTrunc q : ℚ) < q + 1) := by
  constructor
  · intro h
    rw [ratTrunc_nonneg q h]
    exact ⟨Int.floor_le q, Int.lt_floor_add_one q⟩
  · intro h
    have h2 : 0 ≤ -q := by linarith
    have h3 := ratTrunc_nonneg (-q) h2
    have h4 : ratTrunc q = -⌊-q⌋ := by
      rw [← h3, ← ratTrunc_neg, neg_neg]
    rw [h4]
    push_cast
    constructor
    · have := Int.floor_le (-q)
      linarith
    · have := Int.lt_floor_add_one (-q)
      linarith

/-- Restricted and unrestricted result sums agree when no campaign
reports a negative results count. -/
theorem sum_results_filter_pos (camps : List Camp) (h : ∀ c ∈ camps, 0 ≤ c.results) :
    ((camps.filter (fun c => 0 < c.results)).map Camp.results).sum = totalResults camps := by
  induction camps with
  | nil => rfl
  | cons c cs ih =>
    have hc := h c (by simp)
    have ih2 := ih (fun x hx => h x (by simp [hx]))
    by_cases hpos : 0 < c.results
    · rw [show List.filter (fun c => decide (0 < c.results)) (c :: cs) =
        c :: List.filter (fun c => decide (0 < c.results)) cs from
          List.filter_cons_of_pos (by simpa using hpos)]
      simp only [List.map_cons, List.sum_cons, totalResults] at ih2 ⊢
      rw [ih2]
    · have hz : c.results = 0 := by omega
      rw [show List.filter (fun c => decide (0 < c.results)) (c :: cs) =
        List.filter (fun c => decide (0 < c.results)) cs from
          List.filter_cons_of_neg (by simpa using hpos)]
      simp only [totalResults, List.map_cons, List.sum_cons] at ih2 ⊢
      rw [ih2, hz, zero_add]

/-- C2: the code's `cpa_medio` is not literally the quotient
`Σ(cpa·results)/Σ(results)`: the code rounds it to two decimals, so on
cpa values `1.0, 2.0` with results `2, 1` it returns `1.33`, not
`4/3`. -/
theorem C2_counterexample :
    cpaMedio csC2 = mkRat 133 100 ∧ specWeightedCpa csC2 = mkRat 4 3 ∧
      cpaMedio csC2 ≠ specWeightedCpa csC2 := by
  have hfil : csC2.filter (fun c => 0 < c.results) = csC2 := by decide
  have hnum : ((csC2.filter (fun c => 0 < c.results)).map
      (fun c => c.cpa * (c.results : ℚ))).sum = 4 := by
    rw [hfil]
    norm_num [csC2, List.map_cons, List.sum_cons, List.sum_nil]
  have h1 : cpaMedio csC2 = mkRat 133 100 := by
    rw [cpaMedio, if_pos (by decide : 0 < totalResults csC2), hnum,
      show totalResults csC2 = 3 from by decide]
    rw [show ((4 : ℚ) / ((max 1 (3 : ℤ) : ℤ) : ℚ)) = mkRat 4 3 from by
      rw [Rat.mkRat_eq_div]; norm_num]
    decide
  have h2 : specWeightedCpa csC2 = mkRat 4 3 := by
    rw [specWeightedCpa, hnum, hfil]
    rw [show ((csC2.map Camp.results).sum : ℤ) = 3 from by decide]
    rw [Rat.mkRat_eq_div]
    norm_num
  exact ⟨h1, h2, by rw [h1, h2]; decide⟩

/-- C2 (amended): `cpa_medio` equals the spec's weighted quotient
rounded half-even to two decimals whenever no campaign carries a
negative results count (the code's denominator sums all results, the
spec's only the positive ones; they then agree), it is 0 when total
results are not positive, and the spec's example still evaluates to
`2.0`. -/
theorem C2_weighted_cpa_amended :
    (∀ camps : List Camp, (∀ c ∈ camps, 0 ≤ c.results) → 0 < totalResults camps →
      cpaMedio camps = round2 (specWeightedCpa camps)) ∧
    (∀ camps : List Camp, totalResults camps ≤ 0 → cpaMedio camps = 0) ∧
    cpaMedio csC2ex = 2 ∧ specWeightedCpa csC2ex = 2 := by
  refine ⟨fun camps hnn hpos => ?_, fun camps h => ?_, ?_, ?_⟩
  · rw [cpaMedio, if_pos hpos]
    unfold specWeightedCpa
    rw [sum_results_filter_pos camps hnn,
      max_eq_right (by omega : (1 : ℤ) ≤ totalResults camps)]
  · rw [cpaMedio, if_neg (by omega)]
  · have hnum : ((csC2ex.filter (fun c => 0 < c.results)).map
        (fun c => c.cpa * (c.results : ℚ))).sum = 20 := by
      rw [show csC2ex.filter (fun c => 0 < c.results) =
        [⟨"A", "", 0, 0, 0, 10, 2, 0, 0⟩] from by decide]
      norm_num [List.map_cons, List.sum_cons, List.sum_nil]
    rw [cpaMedio, if_pos (by decide : 0 < totalResults csC2ex), hnum,
      show totalResults csC2ex = 10 from by decide]
    rw [show ((20 : ℚ) / ((max 1 (10 : ℤ) : ℤ) : ℚ)) = mkRat 2 1 from by
      rw [Rat.mkRat_eq_div]; norm_num]
    decide
  · have hnum : ((csC2ex.filter (fun c => 0 < c.results)).map
        (fun c => c.cpa * (c.results : ℚ))).sum = 20 := by
      rw [show csC2ex.filter (fun c => 0 < c.results) =
        [⟨"A", "", 0, 0, 0, 10, 2, 0, 0⟩] from by decide]
      norm_num [List.map_cons, List.sum_cons, List.sum_nil]
    rw [specWeightedCpa, hnum,
      show (((csC2ex.filter (fun c => 0 < c.results)).map Camp.results).sum : ℤ) = 10 from
        by decide]
    norm_num

/-- Witness for the amended C2 at the spec's example list. -/
theorem C2_weighted_cpa_amended_witness :
    cpaMedio csC2ex = round2 (specWeightedCpa csC2ex) :=
  C2_weighted_cpa_amended.1 csC2ex (by decide) (by decide)

/-- A successful `int(...)` on the float model comes from a finite value
and truncates it. -/
theorem pyInt_some (x : PyFloat) (n : ℤ) (h : pyInt x = some n) :
    ∃ q, toFinite x = some q ∧ n = ratTrunc q := by
  cases x with
  | fin q => exact ⟨q, rfl, (Option.some.inj h).symm⟩
  | pinf => simp [pyInt] at h
  | ninf => simp [pyInt] at h
  | nan => simp [pyInt] at h

/-- C10: sanitization truncates `impressions`, `reach`, `results` and
`conversations` toward zero with `int(...)` and keeps `spend`, `cpa`,
`roas` as floats rounded to two decimal places. -/
theorem C10_sanitize (raw : RawCamp) (c : Camp) (h : sanitizeCamp raw = some c) :
    (∃ q, toFinite (safe_float raw.results) = some q ∧ c.results = ratTrunc q ∧
      (0 ≤ q → (c.results : ℚ) ≤ q ∧ q < (c.results : ℚ) + 1) ∧
      (q ≤ 0 → q ≤ (c.results : ℚ) ∧ (c.results : ℚ) < q + 1)) ∧
    (∃ q, toFinite (safe_float raw.impressions) = some q ∧ c.impressions = ratTrunc q) ∧
    (∃ q, toFinite (safe_float raw.reach) = some q ∧ c.reach = ratTrunc q) ∧
    (∃ q, toFinite (safe_float raw.conversations) = some q ∧ c.conversations = ratTrunc q) ∧
    (∃ q, toFinite (safe_float raw.spend) = some q ∧ c.spend = round2 q) ∧
    (∃ q, toFinite (safe_float raw.cpa) = some q ∧ c.cpa = round2 q) ∧
    (∃ q, toFinite (safe_float raw.roas) = some q ∧ c.roas = round2 q) := by
  unfold sanitizeCamp at h
  split at h
  next sp im re rs cp ro cv hsp him hre hrs hcp hro hcv =>
    injection h with h2
    subst h2
    obtain ⟨q1, hq1, he1⟩ := pyInt_some _ _ hrs
    obtain ⟨q2, hq2, he2⟩ := pyInt_some _ _ him
    obtain ⟨q3, hq3, he3⟩ := pyInt_some _ _ hre
    obtain ⟨q4, hq4, he4⟩ := pyInt_some _ _ hcv
    refine ⟨⟨q1, hq1, he1, ?_, ?_⟩, ⟨q2, hq2, he2⟩, ⟨q3, hq3, he3⟩, ⟨q4, hq4, he4⟩,
      ⟨sp, hsp, rfl⟩, ⟨cp, hcp, rfl⟩, ⟨ro, hro, rfl⟩⟩
    · intro hq
      rw [he1]
      exact (ratTrunc_bounds q1).1 hq
    · intro hq
      rw [he1]
      exact (ratTrunc_bounds q1).2 hq
  next =>
    exact absurd h (by simp)

/-- Witness for C10 at `rawC10`: the fractional results value `2.9` is
truncated to `2`, inside the stated bounds. -/
theorem C10_sanitize_witness :
    ∃ q, toFinite (safe_float rawC10.results) = some q ∧ campC10.results = ratTrunc q ∧
      (0 ≤ q → (campC10.results : ℚ) ≤ q ∧ q < (campC10.results : ℚ) + 1) ∧
      (q ≤ 0 → q ≤ (campC10.results : ℚ) ∧ (campC10.results : ℚ) < q + 1) :=
  (C10_sanitize rawC10 campC10 (by decide)).1

/-- Evaluation checks of the formatting helpers against Python's
f-string output on concrete values. -/
theorem format_eval_checks :
    intComma 8617 = "8,617" ∧ intComma (-1234567) = "-1,234,567" ∧
    pyFormatComma2 (mkRat 123456 100) = "1,234.56" ∧
    pyFormat2 (mkRat (-5) 2) = "-2.50" ∧
    br_money (mkRat 123456 100) = "R$ 1.234,56" ∧
    br_money 0 = "R$ 0,00" ∧
    pct 1 0 = "0,00%" ∧
    swapSeps (pyFormatComma2 (mkRat 100 3) ++ "%") = "33,33%" := by
  refine ⟨by decide, by decide, by decide, by decide, by decide, by decide, by decide, by decide⟩

/-- C3: every derived ratio is guarded: `pct` returns the literal zero
percentage for a non-positive denominator (and otherwise the finite
rational `100 · n / d`, which is the only division it performs), and the
weighted-CPA division is taken only behind the `total_results > 0`
guard, yielding 0 otherwise.  In the rational model every value is
finite by construction, so no infinity or NaN can arise. -/
theorem C3_ratio_guard :
    (∀ n d : ℚ, d ≤ 0 → pct n d = "0,00%" ∧ pctVal n d = 0) ∧
    (∀ camps : List Camp, totalResults camps ≤ 0 → cpaMedio camps = 0) ∧
    (∀ n d : ℚ, 0 < d → pctVal n d = 100 * (n / d)) := by
  refine ⟨fun n d h => ⟨by rw [pct, if_pos h], by rw [pctVal, if_pos h]⟩,
    fun camps h => by rw [cpaMedio, if_neg (by omega)],
    fun n d h => by rw [pctVal, if_neg (not_le.mpr h)]⟩

/-- Witness for C3 at denominator `0` and at the empty campaign list. -/
theorem C3_ratio_guard_witness :
    (pct 5 0 = "0,00%" ∧ pctVal 5 0 = 0) ∧ cpaMedio [] = 0 :=
  ⟨C3_ratio_guard.1 5 0 le_rfl, C3_ratio_guard.2.1 [] le_rfl⟩

/-- A best-CPA step on a non-empty accumulator stays non-empty. -/
theorem melhorStep_some (b a : Camp) : ∃ b2, melhorStep (some b) a = some b2 := by
  unfold melhorStep
  by_cases hq : 0 < a.results
  · rw [if_pos hq]
    by_cases hlt : a.cpa < b.cpa
    · exact ⟨a, if_pos hlt⟩
    · exact ⟨b, if_neg hlt⟩
  · exact ⟨b, by rw [if_neg hq]⟩

/-- The best-CPA fold never forgets a non-empty accumulator. -/
theorem melhor_foldl_ne_none (camps : List Camp) (b : Camp) :
    camps.foldl melhorStep (some b) ≠ none := by
  induction camps generalizing b with
  | nil => simp
  | cons a rest ih =>
    rw [List.foldl_cons]
    obtain ⟨b2, h2⟩ := melhorStep_some b a
    rw [h2]
    exact ih b2

/-- Characterization of the best-CPA fold from a non-empty accumulator:
either the accumulator survives and weakly dominates every qualifying
campaign, or the result is a qualifying campaign strictly better than
the accumulator, strictly better than every qualifying campaign before
it and weakly better than every one after it. -/
theorem melhor_foldl_some (camps : List Camp) (b c : Camp)
    (h : camps.foldl melhorStep (some b) = some c) :
    (c = b ∧ ∀ x ∈ camps, 0 < x.results → b.cpa ≤ x.cpa) ∨
    (0 < c.results ∧ c.cpa < b.cpa ∧ ∃ l1 l2, camps = l1 ++ c :: l2 ∧
      (∀ x ∈ l1, 0 < x.results → c.cpa < x.cpa) ∧
      (∀ x ∈ l2, 0 < x.results → c.cpa ≤ x.cpa)) := by
  induction camps generalizing b with
  | nil =>
    left
    exact ⟨(Option.some.inj h).symm, by simp⟩
  | cons a rest ih =>
    rw [List.foldl_cons] at h
    by_cases hq : 0 < a.results
    · by_cases hlt : a.cpa < b.cpa
      · have h2 : melhorStep (some b) a = some a := by
          unfold melhorStep
          rw [if_pos hq]
          exact if_pos hlt
        rw [h2] at h
        rcases ih a h with ⟨rfl, hdom⟩ | ⟨hc1, hc2, l1, l2, rfl, hl1, hl2⟩
        · right
          exact ⟨hq, hlt, [], rest, rfl, by simp, hdom⟩
        · right
          refine ⟨hc1, lt_trans hc2 hlt, a :: l1, l2, rfl, ?_, hl2⟩
          intro x hx hpx
          rcases List.mem_cons.mp hx with rfl | hx2
          · exact hc2
          · exact hl1 x hx2 hpx
      · have h2 : melhorStep (some b) a = some b := by
          unfold melhorStep
          rw [if_pos hq]
          exact if_neg hlt
        rw [h2] at h
        rcases ih b h with ⟨rfl, hdom⟩ | ⟨hc1, hc2, l1, l2, rfl, hl1, hl2⟩
        · left
          refine ⟨rfl, fun x hx hpx => ?_⟩
          rcases List.mem_cons.mp hx with rfl | hx2
          · exact not_lt.mp hlt
          · exact hdom x hx2 hpx
        · right
          refine ⟨hc1, hc2, a :: l1, l2, rfl, fun x hx hpx => ?_, hl2⟩
          rcases List.mem_cons.mp hx with rfl | hx2
          · exact lt_of_lt_of_le hc2 (not_lt.mp hlt)
          · exact hl1 x hx2 hpx
    · have h2 : melhorStep (some b) a = some b := by
        unfold melhorStep
        rw [if_neg hq]
      rw [h2] at h
      rcases ih b h with ⟨rfl, hdom⟩ | ⟨hc1, hc2, l1, l2, rfl, hl1, hl2⟩
      · left
        refine ⟨rfl, fun x hx hpx => ?_⟩
        rcases List.mem_cons.mp hx with rfl | hx2
        · exact absurd hpx hq
        · exact hdom x hx2 hpx
      · right
        refine ⟨hc1, hc2, a :: l1, l2, rfl, fun x hx hpx => ?_, hl2⟩
        rcases List.mem_cons.mp hx with rfl | hx2
        · exact absurd hpx hq
        · exact hl1 x hx2 hpx

/-- The scan `camp_melhor_cpa` is `None` exactly when no campaign has positive
results. -/
theorem melhorCpa_none (camps : List Camp) :
    melhorCpa camps = none ↔ ∀ c ∈ camps, ¬0 < c.results := by
  induction camps with
  | nil => simp [melhorCpa]
  | cons a rest ih =>
    rw [melhorCpa, List.foldl_cons]
    by_cases hq : 0 < a.results
    · have h2 : melhorStep none a = some a := by
        unfold melhorStep
        rw [if_pos hq]
      rw [h2]
      constructor
      · intro h
        exact absurd h (melhor_foldl_ne_none rest a)
      · intro h
        exact absurd hq (h a (by simp))
    · have h2 : melhorStep none a = none := by
        unfold melhorStep
        rw [if_neg hq]
      rw [h2]
      rw [melhorCpa] at ih
      rw [ih]
      constructor
      · intro h x hx
        rcases List.mem_cons.mp hx with rfl | hx2
        · exact hq
        · exact h x hx2
      · intro h x hx
        exact h x (by simp [hx])

/-- When `camp_melhor_cpa` finds a campaign, it is a positive-results
campaign with the minimum CPA, the first such in input order. -/
theorem melhorCpa_some (camps : List Camp) (c : Camp) (h : melhorCpa camps = some c) :
    0 < c.results ∧ ∃ l1 l2, camps = l1 ++ c :: l2 ∧
      (∀ x ∈ l1, 0 < x.results → c.cpa < x.cpa) ∧
      (∀ x ∈ l2, 0 < x.results → c.cpa ≤ x.cpa) := by
  induction camps with
  | nil => simp [melhorCpa] at h
  | cons a rest ih =>
    rw [melhorCpa, List.foldl_cons] at h
    by_cases hq : 0 < a.results
    · have h2 : melhorStep none a = some a := by
        unfold melhorStep
        rw [if_pos hq]
      rw [h2] at h
      rcases melhor_foldl_some rest a c h with ⟨rfl, hdom⟩ | ⟨hc1, hc2, l1, l2, rfl, hl1, hl2⟩
      · exact ⟨hq, [], rest, rfl, by simp, hdom⟩
      · refine ⟨hc1, a :: l1, l2, rfl, fun x hx hpx => ?_, hl2⟩
        rcases List.mem_cons.mp hx with rfl | hx2
        · exact hc2
        · exact hl1 x hx2 hpx
    · have h2 : melhorStep none a = none := by
        unfold melhorStep
        rw [if_neg hq]
      rw [h2] at h
      obtain ⟨hc1, l1, l2, hsplit, hl1, hl2⟩ := ih (by rwa [melhorCpa])
      refine ⟨hc1, a :: l1, l2, by rw [hsplit, List.cons_append], fun x hx hpx => ?_, hl2⟩
      rcases List.mem_cons.mp hx with rfl | hx2
      · exact absurd hpx hq
      · exact hl1 x hx2 hpx

/-- A highest-volume step on a non-empty accumulator stays non-empty. -/
theorem maiorStep_some (b a : Camp) : ∃ b2, maiorStep (some b) a = some b2 := by
  unfold maiorStep
  by_cases hlt : b.results < a.results
  · exact ⟨a, if_pos hlt⟩
  · exact ⟨b, if_neg hlt⟩

/-- The highest-volume fold never forgets a non-empty accumulator. -/
theorem maior_foldl_ne_none (camps : List Camp) (b : Camp) :
    camps.foldl maiorStep (some b) ≠ none := by
  induction camps generalizing b with
  | nil => simp
  | cons a rest ih =>
    rw [List.foldl_cons]
    obtain ⟨b2, h2⟩ := maiorStep_some b a
    rw [h2]
    exact ih b2

/-- Characterization of the highest-volume fold from a non-empty
accumulator. -/
theorem maior_foldl_some (camps : List Camp) (b c : Camp)
    (h : camps.foldl maiorStep (some b) = some c) :
    (c = b ∧ ∀ x ∈ camps, x.results ≤ b.results) ∨
    (b.results < c.results ∧ ∃ l1 l2, camps = l1 ++ c :: l2 ∧
      (∀ x ∈ l1, x.results < c.results) ∧ (∀ x ∈ l2, x.results ≤ c.results)) := by
  induction camps generalizing b with
  | nil =>
    left
    exact ⟨(Option.some.inj h).symm, by simp⟩
  | cons a rest ih =>
    rw [List.foldl_cons] at h
    by_cases hlt : b.results < a.results
    · have h2 : maiorStep (some b) a = some a := if_pos hlt
      rw [h2] at h
      rcases ih a h with ⟨rfl, hdom⟩ | ⟨hc1, l1, l2, rfl, hl1, hl2⟩
      · right
        exact ⟨hlt, [], rest, rfl, by simp, hdom⟩
      · right
        refine ⟨lt_trans hlt hc1, a :: l1, l2, rfl, fun x hx => ?_, hl2⟩
        rcases List.mem_cons.mp hx with rfl | hx2
        · exact hc1
        · exact hl1 x hx2
    · have h2 : maiorStep (some b) a = some b := if_neg hlt
      rw [h2] at h
      rcases ih b h with ⟨rfl, hdom⟩ | ⟨hc1, l1, l2, rfl, hl1, hl2⟩
      · left
        refine ⟨rfl, fun x hx => ?_⟩
        rcases List.mem_cons.mp hx with rfl | hx2
        · exact not_lt.mp hlt
        · exact hdom x hx2
      · right
        refine ⟨hc1, a :: l1, l2, rfl, fun x hx => ?_, hl2⟩
        rcases List.mem_cons.mp hx with rfl | hx2
        · exact lt_of_le_of_lt (not_lt.mp hlt) hc1
        · exact hl1 x hx2

/-- The scan `camp_mais_result` is `None` exactly on the empty list. -/
theorem maisResult_none (camps : List Camp) :
    maisResult camps = none ↔ camps = [] := by
  cases camps with
  | nil => simp [maisResult]
  | cons a rest =>
    rw [maisResult, List.foldl_cons]
    have h2 : maiorStep none a = some a := rfl
    rw [h2]
    simp only [iff_false, ne_eq, List.cons_ne_nil, iff_false]
    exact maior_foldl_ne_none rest a

/-- When `camp_mais_result` finds a campaign, it has the maximum results
count, the first such in input order. -/
theorem maisResult_some (camps : List Camp) (c : Camp) (h : maisResult camps = some c) :
    ∃ l1 l2, camps = l1 ++ c :: l2 ∧ (∀ x ∈ l1, x.results < c.results) ∧
      (∀ x ∈ l2, x.results ≤ c.results) := by
  cases camps with
  | nil => simp [maisResult] at h
  | cons a rest =>
    rw [maisResult, List.foldl_cons] at h
    have h2 : maiorStep none a = some a := rfl
    rw [h2] at h
    rcases maior_foldl_some rest a c h with ⟨rfl, hdom⟩ | ⟨hc1, l1, l2, rfl, hl1, hl2⟩
    · exact ⟨[], rest, rfl, by simp, hdom⟩
    · refine ⟨a :: l1, l2, rfl, fun x hx => ?_, hl2⟩
      rcases List.mem_cons.mp hx with rfl | hx2
      · exact hc1
      · exact hl1 x hx2

/-- C5: the best-efficiency highlight is the first campaign attaining
the minimum CPA among positive-results campaigns and is omitted when no
campaign has positive results; the highest-volume highlight is the
first campaign attaining the maximum results count. -/
theorem C5_highlights :
    (∀ camps : List Camp, melhorCpa camps = none ↔ ∀ c ∈ camps, ¬0 < c.results) ∧
    (∀ (camps : List Camp) (c : Camp), melhorCpa camps = some c →
      0 < c.results ∧ ∃ l1 l2, camps = l1 ++ c :: l2 ∧
        (∀ x ∈ l1, 0 < x.results → c.cpa < x.cpa) ∧
        (∀ x ∈ l2, 0 < x.results → c.cpa ≤ x.cpa)) ∧
    (∀ camps : List Camp, maisResult camps = none ↔ camps = []) ∧
    (∀ (camps : List Camp) (c : Camp), maisResult camps = some c →
      ∃ l1 l2, camps = l1 ++ c :: l2 ∧ (∀ x ∈ l1, x.results < c.results) ∧
        (∀ x ∈ l2, x.results ≤ c.results)) ∧
    (∀ camps : List Camp, (∀ c ∈ camps, ¬0 < c.results) → destaquesEff camps = []) ∧
    (∀ (camps : List Camp) (c : Camp), melhorCpa camps = some c →
      destaquesEff camps = [effLine c]) := by
  refine ⟨melhorCpa_none, melhorCpa_some, maisResult_none, maisResult_some,
    fun camps h => ?_, fun camps c h => ?_⟩
  · unfold destaquesEff
    rw [(melhorCpa_none camps).mpr h]
  · unfold destaquesEff
    rw [h]
    exact if_pos (melhorCpa_some camps c h).1

/-- Witness for C5 on a concrete two-campaign list: the second campaign
wins best CPA. -/
theorem C5_highlights_witness :
    0 < (Camp.mk "B" "" 0 0 0 3 1 0 0).results ∧
      ∃ l1 l2, [Camp.mk "A" "" 0 0 0 2 5 0 0, Camp.mk "B" "" 0 0 0 3 1 0 0] =
          l1 ++ Camp.mk "B" "" 0 0 0 3 1 0 0 :: l2 ∧
        (∀ x ∈ l1, 0 < x.results → (Camp.mk "B" "" 0 0 0 3 1 0 0).cpa < x.cpa) ∧
        (∀ x ∈ l2, 0 < x.results → (Camp.mk "B" "" 0 0 0 3 1 0 0).cpa ≤ x.cpa) :=
  C5_highlights.2.1 [Camp.mk "A" "" 0 0 0 2 5 0 0, Camp.mk "B" "" 0 0 0 3 1 0 0]
    (Camp.mk "B" "" 0 0 0 3 1 0 0) (by decide)

/-- Strings differing at one character position differ. -/
theorem strNe (s t : String) (k : ℕ) (h : s.data[k]? ≠ t.data[k]?) : s ≠ t :=
  fun e => h (by rw [e])

/-- A character of the left part of an append is a character of the
append. -/
theorem appendGet (s t : String) (k : ℕ) (c : Char) (h : s.data[k]? = some c) :
    (s ++ t).data[k]? = some c := by
  rw [show (s ++ t).data = s.data ++ t.data from rfl,
    List.getElem?_append_left (List.getElem?_eq_some.mp h).1, h]

/-- Characters of a one-character replacement are the replaced
characters. -/
theorem charReplaceGet (a b : Char) (s : String) (k : ℕ) :
    (charReplace a b s).data[k]? = (s.data[k]?).map (fun c => if c = a then b else c) := by
  rw [charReplace]
  exact List.getElem?_map _ _ _

/-- The name line of a recommendation block starts with an asterisk. -/
theorem nameLineGet (c : Camp) : ("**" ++ c.name ++ "**").data[0]? = some '*' :=
  appendGet _ _ _ _ (appendGet _ _ _ _ (by decide))

/-- Every bucket text starts with a dash. -/
theorem bucketLineGet0 (c : Camp) (b : Bucket) : (bucketLine c b).data[0]? = some '-' := by
  cases b with
  | scale => exact appendGet _ _ _ _ (appendGet _ _ _ _ (by decide))
  | noConv => rfl
  | insufficient => rfl

/-- The third character distinguishes the three bucket texts
(`B`, `H`, `S`) and the ROAS note (`R`). -/
theorem bucketLineGet2 (c : Camp) :
    (bucketLine c .scale).data[2]? = some 'B' ∧
    (bucketLine c .noConv).data[2]? = some 'H' ∧
    (bucketLine c .insufficient).data[2]? = some 'S' ∧
    (roasLine c).data[2]? = some 'R' := by
  refine ⟨appendGet _ _ _ _ (appendGet _ _ _ _ (by decide)), rfl, rfl,
    appendGet _ _ _ _ (appendGet _ _ _ _ (by decide))⟩

/-- The name line is not a bucket text. -/
theorem nameLine_not_bucket (c d : Camp) (b : Bucket) :
    ("**" ++ c.name ++ "**") ≠ bucketLine d b :=
  strNe _ _ 0 (by rw [nameLineGet, bucketLineGet0]; decide)

/-- The ROAS note is not a bucket text. -/
theorem roasLine_not_bucket (c d : Camp) (b : Bucket) : roasLine c ≠ bucketLine d b := by
  apply strNe _ _ 2
  rw [(bucketLineGet2 c).2.2.2]
  cases b with
  | scale => rw [(bucketLineGet2 d).1]; decide
  | noConv => rw [(bucketLineGet2 d).2.1]; decide
  | insufficient => rw [(bucketLineGet2 d).2.2.1]; decide

/-- The blank line is not a bucket text. -/
theorem blank_not_bucket (d : Camp) (b : Bucket) : "" ≠ bucketLine d b :=
  strNe _ _ 0 (by rw [bucketLineGet0]; decide)

/-- The three bucket texts of one campaign are pairwise distinct. -/
theorem bucketTexts_distinct (c : Camp) :
    bucketLine c .scale ≠ bucketLine c .noConv ∧
    bucketLine c .scale ≠ bucketLine c .insufficient ∧
    bucketLine c .noConv ≠ bucketLine c .insufficient := by
  obtain ⟨h1, h2, h3, _⟩ := bucketLineGet2 c
  exact ⟨strNe _ _ 2 (by rw [h1, h2]; decide), strNe _ _ 2 (by rw [h1, h3]; decide),
    strNe _ _ 2 (by rw [h2, h3]; decide)⟩

/-- C4: the classification honours the spec's priority order, the
emitted block contains the text of the selected bucket, and exactly one
of the three bucket texts occurs in the block. -/
theorem C4_classification (c : Camp) :
    ((0 < c.results ∧ 0 < c.cpa) → classify c = .scale) ∧
    (¬(0 < c.results ∧ 0 < c.cpa) → (c.results = 0 ∧ 0 < c.impressions) →
      classify c = .noConv) ∧
    (¬(0 < c.results ∧ 0 < c.cpa) → ¬(c.results = 0 ∧ 0 < c.impressions) →
      classify c = .insufficient) ∧
    bucketLine c (classify c) ∈ campBlock c ∧
    (campBlock c).countP (fun l => l ∈ bucketTexts c) = 1 := by
  refine ⟨fun h => by rw [classify, if_pos h], fun h1 h2 => by rw [classify, if_neg h1, if_pos h2],
    fun h1 h2 => by rw [classify, if_neg h1, if_neg h2], by simp [campBlock], ?_⟩
  have hmem : ∀ b : Bucket, decide (bucketLine c b ∈ bucketTexts c) = true := by
    intro b
    cases b <;> simp [bucketTexts]
  have hname : decide (("**" ++ c.name ++ "**") ∈ bucketTexts c) = false := by
    simp only [bucketTexts, List.mem_cons, List.not_mem_nil, or_false, decide_eq_false_iff_not]
    push_neg
    exact ⟨nameLine_not_bucket c c .scale, nameLine_not_bucket c c .noConv,
      nameLine_not_bucket c c .insufficient⟩
  have hroas : decide ((roasLine c) ∈ bucketTexts c) = false := by
    simp only [bucketTexts, List.mem_cons, List.not_mem_nil, or_false, decide_eq_false_iff_not]
    push_neg
    exact ⟨roasLine_not_bucket c c .scale, roasLine_not_bucket c c .noConv,
      roasLine_not_bucket c c .insufficient⟩
  have hblank : decide (("" : String) ∈ bucketTexts c) = false := by
    simp only [bucketTexts, List.mem_cons, List.not_mem_nil, or_false, decide_eq_false_iff_not]
    push_neg
    exact ⟨blank_not_bucket c .scale, blank_not_bucket c .noConv, blank_not_bucket c .insufficient⟩
  rw [campBlock]
  rw [List.countP_append, List.countP_append, List.countP_cons, List.countP_cons,
    List.countP_nil, List.countP_cons, List.countP_nil]
  rw [hname, hmem (classify c), hblank]
  by_cases hr : 0 < c.roas
  · rw [if_pos hr, List.countP_cons, List.countP_nil, hroas]
    simp
  · rw [if_neg hr, List.countP_nil]
    simp

/-- Witness for C4 at a campaign with delivery but no conversions. -/
theorem C4_classification_witness :
    classify (Camp.mk "A" "" 10 500 0 0 0 0 0) = .noConv :=
  (C4_classification (Camp.mk "A" "" 10 500 0 0 0 0 0)).2.1 (by decide) (by decide)

/-- C6: with an empty campaign list the narrative succeeds, its
highlights section consists exactly of the no-campaigns notice, and the
recommendations section has no per-campaign blocks. -/
theorem C6_empty (p : Payload) (h : p.campaigns = []) :
    construir_narrativa p = some (String.intercalate "\n" (linhasOf p [])) ∧
    semCampLine ∈ linhasOf p [] ∧
    destaquesLines [] = ["\n## Destaques", semCampLine] ∧
    destaquesEff [] = [] ∧ destaquesVol [] = [] ∧
    recomendacoesLines [] = ["\n## Recomendações por Campanha"] := by
  refine ⟨?_, ?_, rfl, rfl, rfl, rfl⟩
  · rw [construir_narrativa, h]
    rfl
  · have hd : semCampLine ∈ destaquesLines [] := by
      rw [show destaquesLines [] = ["\n## Destaques", semCampLine] from rfl]
      simp
    rw [linhasOf]
    simp only [List.mem_append]
    tauto

/-- Witness for C6 at the concrete empty payload. -/
theorem C6_empty_witness : semCampLine ∈ linhasOf pEmptyC6 [] :=
  (C6_empty pEmptyC6 rfl).2.1

/-- The overview line starts `O i…`. -/
theorem overviewGet0 (camps : List Camp) : (overviewLine camps).data[0]? = some 'O' := by
  rw [overviewLine, charReplaceGet,
    appendGet _ _ _ 'O' (appendGet _ _ _ 'O' (appendGet _ _ _ 'O' (appendGet _ _ _ 'O'
      (appendGet _ _ _ 'O' (appendGet _ _ _ 'O' (by decide))))))]
  rfl

/-- The overview line has `i` in third position. -/
theorem overviewGet2 (camps : List Camp) : (overviewLine camps).data[2]? = some 'i' := by
  rw [overviewLine, charReplaceGet,
    appendGet _ _ _ 'i' (appendGet _ _ _ 'i' (appendGet _ _ _ 'i' (appendGet _ _ _ 'i'
      (appendGet _ _ _ 'i' (appendGet _ _ _ 'i' (by decide))))))]
  rfl

/-- The CPA line starts `O *…`. -/
theorem cpaLineGet (camps : List Camp) :
    (cpaLine camps).data[0]? = some 'O' ∧ (cpaLine camps).data[2]? = some '*' := by
  constructor
  · rw [cpaLine, appendGet _ _ _ 'O' (appendGet _ _ _ 'O' (by decide))]
  · rw [cpaLine, appendGet _ _ _ '*' (appendGet _ _ _ '*' (by decide))]

/-- C7: the narrative's overview section always carries the totals line,
and carries the average-CPA line exactly when total results are
positive, otherwise the cannot-compute line. -/
theorem C7_overview (p : Payload) (camps : List Camp)
    (h : sanitizeAll p.campaigns = some camps) :
    construir_narrativa p = some (String.intercalate "\n" (linhasOf p camps)) ∧
    (∃ pre post, linhasOf p camps = pre ++ visaoGeralLines camps ++ post) ∧
    overviewLine camps ∈ visaoGeralLines camps ∧
    (0 < totalResults camps ↔ cpaLine camps ∈ visaoGeralLines camps) ∧
    (¬0 < totalResults camps ↔ noCpaLine ∈ visaoGeralLines camps) := by
  refine ⟨by rw [construir_narrativa, h]; rfl,
    ⟨cabecalhoLines p, metricasLines ++ destaquesLines camps ++ recomendacoesLines camps ++
      proximosLines ++ observacoesLines p ++ resumoLines,
      by rw [linhasOf]; simp [List.append_assoc]⟩, ?_, ?_, ?_⟩
  · rw [visaoGeralLines]
    simp
  · constructor
    · intro hpos
      rw [visaoGeralLines, if_pos hpos]
      simp
    · intro hmem
      by_contra hneg
      rw [visaoGeralLines, if_neg hneg] at hmem
      rcases List.mem_cons.mp hmem with h1 | hmem2
      · exact strNe _ _ 0 (by rw [(cpaLineGet camps).1]; decide) h1
      rcases List.mem_cons.mp hmem2 with h1 | hmem3
      · exact strNe _ _ 2 (by rw [(cpaLineGet camps).2, overviewGet2 camps]; decide) h1
      rcases List.mem_cons.mp hmem3 with h1 | hmem4
      · exact strNe _ _ 0 (by rw [(cpaLineGet camps).1]; decide) h1
      · exact absurd hmem4 (List.not_mem_nil _)
  · constructor
    · intro hneg
      rw [visaoGeralLines, if_neg hneg]
      simp
    · intro hmem
      by_cases hpos : 0 < totalResults camps
      · exfalso
        rw [visaoGeralLines, if_pos hpos] at hmem
        rcases List.mem_cons.mp hmem with h1 | hmem2
        · exact absurd h1 (by decide)
        rcases List.mem_cons.mp hmem2 with h1 | hmem3
        · exact strNe _ _ 0 (by rw [overviewGet0 camps]; decide) h1.symm
        rcases List.mem_cons.mp hmem3 with h1 | hmem4
        · exact strNe _ _ 0 (by rw [(cpaLineGet camps).1]; decide) h1.symm
        · exact absurd hmem4 (List.not_mem_nil _)
      · exact hpos

/-- Witness for C7 at the concrete payload: positive results, so the
overview states the average CPA. -/
theorem C7_overview_witness :
    overviewLine csC7 ∈ visaoGeralLines csC7 ∧ cpaLine csC7 ∈ visaoGeralLines csC7 :=
  ⟨(C7_overview pC7 csC7 (by decide)).2.2.1,
    ((C7_overview pC7 csC7 (by decide)).2.2.2.1).mp (by decide)⟩

/-- C9: the narrative synthesizer is a pure function of the payload:
equal payloads produce equal results (in the model there is no other
state it could read, matching the source, whose only reads are of its
argument and local variables). -/
theorem C9_deterministic (p q : Payload) (h : p = q) :
    construir_narrativa p = construir_narrativa q := by
  rw [h]

/-- Witness for C9: two invocations on the same concrete payload
agree. -/
theorem C9_deterministic_witness : construir_narrativa pC9 = construir_narrativa pC9 :=
  C9_deterministic pC9 pC9 rfl

end Volxo
